import Mathlib

/-!
Verification of the Raphtory temporal property graph engine against its
natural-language specification.

The development shallowly embeds the parts of the code base that the claims
refer to.  Where the deciding code is present under the repository sources
(`balance.rs`, `db/api/view/time.rs`, `graph_equal` in `db/graph/graph.rs`)
the Lean definitions are direct translations of the Rust functions.  The
underlying temporal store (`InnerTemporalGraph`, `WindowedGraph`,
degree / explode / history internals) is not part of the provided sources;
those parts are modelled from the specification and validated against the
unit tests that are part of the sources.

Conventions:
* machine integers (`i64` times) are embedded as `Int`;
* `f64` property values are embedded as `ℚ` (all scenario values are small
  decimals that `f64` represents exactly, no rounding is involved);
* fallible operations return `Option` / `Except`.
-/

namespace Raphtory

/-- Tagged property value (`Prop` in the source, a tagged union over
numbers, strings and booleans; all numeric tags are collapsed into one
rational-valued constructor). -/
inductive Val where
  | num (q : ℚ)
  | str (s : String)
  | boolean (b : Bool)
deriving DecidableEq, Repr

/-- Lossy numeric downcast (`into_f64`): numeric values convert, any other
tag is absent. -/
def intoF64 : Val → Option ℚ
  | .num q => some q
  | _ => none

/-- Edge direction selector (`core::Direction`). -/
inductive Direction where
  | IN
  | OUT
  | BOTH
deriving DecidableEq, Repr

/-- One `add_edge(time, src, dst, props, layer)` event tuple.  `layer = none`
is the default layer. -/
structure EdgeAddition where
  time : Int
  src : Nat
  dst : Nat
  layer : Option String
  props : List (String × Val)
deriving DecidableEq, Repr

/-- Modelled from the spec: the temporal multigraph store is an append-only
event log; we keep the node-addition events and the edge-addition events in
insertion order. -/
structure Graph where
  nodeAdds : List (Int × Nat)
  edgeAdds : List EdgeAddition
deriving DecidableEq, Repr

/-- Append a name to a registry list if it is not already present (layer
names are interned with monotonically assigned ids). -/
def insertUniq (xs : List String) (x : String) : List String :=
  if x ∈ xs then xs else xs ++ [x]

/-- Modelled from the spec: the layer registry lists the named layers in
order of first appearance; id 0 is reserved for the default layer. -/
def layerNames (g : Graph) : List String :=
  g.edgeAdds.foldl
    (fun acc a =>
      match a.layer with
      | some n => insertUniq acc n
      | none => acc)
    []

/-- Numeric layer id of an edge addition: 0 for the default layer, the
registry index + 1 for a named layer. -/
def layerId (g : Graph) (l : Option String) : Nat :=
  match l with
  | none => 0
  | some n => (layerNames g).indexOf n + 1

/-- All node ids mentioned by the event log (node additions and edge
endpoints). -/
def mentions (g : Graph) : List Nat :=
  g.nodeAdds.map Prod.snd ++ g.edgeAdds.map EdgeAddition.src
    ++ g.edgeAdds.map EdgeAddition.dst

/-- Distinct node ids of the graph. -/
def nodesOf (g : Graph) : List Nat :=
  (mentions g).dedup

/-! ## Balance (translated from `algorithms/metrics/balance.rs`) -/

/-- Lookup of a property by name in an event's property list. -/
def propLookup (p : String) : List (String × Val) → Option Val
  | [] => none
  | (k, v) :: rest => if k = p then some v else propLookup p rest

/-- The (src, dst) pair identifying the logical edge of an event. -/
def edgeKey (a : EdgeAddition) : Nat × Nat :=
  (a.src, a.dst)

/-- Modelled from the spec: `v.in_edges()` yields one edge view per distinct
(src, dst) pair with `dst = v` (a logical edge spans all of its layers). -/
def inEdges (g : Graph) (v : Nat) : List (Nat × Nat) :=
  ((g.edgeAdds.filter (fun a => a.dst = v)).map edgeKey).dedup

/-- Modelled from the spec: `v.out_edges()` yields one edge view per distinct
(src, dst) pair with `src = v`. -/
def outEdges (g : Graph) (v : Nat) : List (Nat × Nat) :=
  ((g.edgeAdds.filter (fun a => a.src = v)).map edgeKey).dedup

/-- Modelled from the spec: the temporal values recorded for property `p` on
the (s, d) edge, across all of the edge's layers, one per event that carries
the property. -/
def tempValues (g : Graph) (s d : Nat) (p : String) : List Val :=
  (g.edgeAdds.filter (fun a => a.src = s ∧ a.dst = d)).filterMap
    (fun a => propLookup p a.props)

/-- Modelled from the spec: `properties().temporal().get(p)` is absent when
the edge has no temporal observation for `p`. -/
def tempGet (g : Graph) (s d : Nat) (p : String) : Option (List Val) :=
  if tempValues g s d p = [] then none else some (tempValues g s d p)

/-- Summation of property values after `into_f64`, a non-numeric value
contributing `0.0` (`val.into_f64().unwrap_or(0.0)` summed). -/
def sumF64 (vs : List Val) : ℚ :=
  (vs.map (fun v => (intoF64 v).getD 0)).sum

/-- Direct translation of the `Direction::IN` arm of `balance_per_node`:
`v.in_edges().properties().flat_map(|prop| prop.temporal().get(name).map(|val|
val.values().map(into_f64.unwrap_or(0.0)).sum())).sum()`. -/
def inFlow (g : Graph) (p : String) (v : Nat) : ℚ :=
  ((inEdges g v).filterMap (fun e => (tempGet g e.1 e.2 p).map sumF64)).sum

/-- Direct translation of the sum inside the `Direction::OUT` arm of
`balance_per_node` (before negation). -/
def outFlow (g : Graph) (p : String) (v : Nat) : ℚ :=
  ((outEdges g v).filterMap (fun e => (tempGet g e.1 e.2 p).map sumF64)).sum

/-- Translation of `balance_per_node` (balance.rs lines 46-84): `IN` sums
incoming weights, `OUT` negates the outgoing sum, `BOTH` adds the results of
the recursive `IN` and `OUT` calls. -/
def balancePerNode (g : Graph) (p : String) (d : Direction) (v : Nat) : ℚ :=
  match d with
  | .IN => inFlow g p v
  | .OUT => -outFlow g p v
  | .BOTH => inFlow g p v + -outFlow g p v

/-- Translation of `balance` (balance.rs lines 100-128): one task per node
stores `balance_per_node` in a `sum(0)` accumulator; the finalized
`AlgorithmResult` maps every node to its value.  The task runner is modelled
as a deterministic map over the nodes (the spec guarantees thread-count
independence for the associative-commutative `sum` accumulator, so the
`threads` argument is irrelevant to the result). -/
def balance (g : Graph) (p : String) (d : Direction) : List (Nat × ℚ) :=
  (nodesOf g).map (fun v => (v, balancePerNode g p d v))

/-- Per-event contribution used by the claim: the event's `into_f64` value of
`p`, a non-numeric or absent value contributing `0.0`. -/
def eventValue (p : String) (a : EdgeAddition) : ℚ :=
  ((propLookup p a.props).map (fun v => (intoF64 v).getD 0)).getD 0

/-- Sign with which an event contributes to the claimed balance of node `v`:
`-1` on the source endpoint when the direction is `OUT` or `BOTH`, `+1` on
the destination endpoint when the direction is `IN` or `BOTH`, `0`
otherwise. -/
def claimSign (d : Direction) (v : Nat) (a : EdgeAddition) : ℚ :=
  (if a.src = v ∧ (d = .OUT ∨ d = .BOTH) then -1 else 0)
    + (if a.dst = v ∧ (d = .IN ∨ d = .BOTH) then 1 else 0)

/-- The balance of node `v` as the claim states it: the signed sum, over all
incident edge events, of the per-event `into_f64` values of `p`. -/
def claimBalance (g : Graph) (p : String) (d : Direction) (v : Nat) : ℚ :=
  (g.edgeAdds.map (fun a => claimSign d v a * eventValue p a)).sum

/-- The eight-event scenario S2 from the specification (also the
`test_sum_float_weights` unit test in balance.rs). -/
def s2Graph : Graph :=
  ⟨[],
    [⟨1, 1, 2, none, [("value_dec", .num 10)]⟩,
     ⟨2, 1, 4, none, [("value_dec", .num 20)]⟩,
     ⟨3, 2, 3, none, [("value_dec", .num 5)]⟩,
     ⟨4, 3, 2, none, [("value_dec", .num 2)]⟩,
     ⟨5, 3, 1, none, [("value_dec", .num 1)]⟩,
     ⟨6, 4, 3, none, [("value_dec", .num 10)]⟩,
     ⟨7, 4, 1, none, [("value_dec", .num 5)]⟩,
     ⟨8, 1, 5, none, [("value_dec", .num 2)]⟩]⟩

/-! ## Views and window composition (C4, C7) -/

/-- Membership of a time in an optional half-open window. -/
def inWindow (w : Option (Int × Int)) (t : Int) : Bool :=
  match w with
  | none => true
  | some (s, e) => decide (s ≤ t) && decide (t < e)

/-- Modelled from the spec: a view is a reference to the base store plus an
optional half-open time window (the `WindowedGraph` wrapper stack is not
under the provided sources); nested windows intersect. -/
structure View where
  base : Graph
  window : Option (Int × Int)
deriving DecidableEq, Repr

/-- Translation of the blanket `TimeOps::window` (time.rs lines 118-124):
wrap the current view in a window; modelled from the spec, the effective
window of the wrapped view is the intersection of the current window with
`[a, b)`. -/
def View.windowed (v : View) (a b : Int) : View :=
  { v with
    window :=
      match v.window with
      | none => some (a, b)
      | some (s, e) => some (max s a, min e b) }

/-- Edge events visible in the view. -/
def View.events (v : View) : List EdgeAddition :=
  v.base.edgeAdds.filter (fun a => inWindow v.window a.time)

/-- Node ids visible in the view: nodes with at least one event inside the
window. -/
def View.nodes (v : View) : List Nat :=
  ((v.base.nodeAdds.filter (fun na => inWindow v.window na.1)).map Prod.snd
    ++ (View.events v).map EdgeAddition.src
    ++ (View.events v).map EdgeAddition.dst).dedup

/-- Distinct (src, dst) edges visible in the view. -/
def View.edges (v : View) : List (Nat × Nat) :=
  ((View.events v).map edgeKey).dedup

/-- Events of one (src, dst) edge visible in the view. -/
def View.edgeEvents (v : View) (s d : Nat) : List EdgeAddition :=
  (View.events v).filter (fun a => a.src = s ∧ a.dst = d)

/-- Insertion of a time into a strictly sorted list, dropping duplicates. -/
def insertT (t : Int) : List Int → List Int
  | [] => [t]
  | x :: xs =>
    if t < x then t :: x :: xs
    else if t = x then x :: xs
    else x :: insertT t xs

/-- Sorted de-duplicated arrangement of a list of times. -/
def sortTimes (l : List Int) : List Int :=
  l.foldr insertT []

/-- Modelled from the spec: a node's history is the sorted de-duplicated
list of the node's event times that fall inside the view's window. -/
def View.nodeHistory (v : View) (n : Nat) : List Int :=
  sortTimes
    ((v.base.nodeAdds.filter
        (fun na => decide (na.2 = n) && inWindow v.window na.1)).map Prod.fst)

/-- All event times of the graph (node additions and edge events). -/
def eventTimes (g : Graph) : List Int :=
  g.nodeAdds.map Prod.fst ++ g.edgeAdds.map EdgeAddition.time

/-- Start bound of a view: the window start when windowed, otherwise the
earliest event time (undefined on an empty graph). -/
def View.startTime (v : View) : Option Int :=
  match v.window with
  | some (s, _) => some s
  | none => (eventTimes v.base).min?

/-- End bound of a view: the window end when windowed, otherwise the latest
event time plus one (undefined on an empty graph). -/
def View.endTime (v : View) : Option Int :=
  match v.window with
  | some (_, e) => some e
  | none => ((eventTimes v.base).max?).map (fun t => t + 1)

/-! ## Layer selection, degree and edge counts (C2, C6) -/

/-- Layer selector (`Layer::All`, `Layer::Default` or a single name). -/
inductive LayerSel where
  | all
  | dflt
  | name (n : String)
deriving DecidableEq, Repr

/-- Whether an event's layer is selected. -/
def selMatches (sel : LayerSel) (l : Option String) : Bool :=
  match sel with
  | .all => true
  | .dflt => l.isNone
  | .name n => l == some n

/-- Modelled from the spec: `has_edge(src, dst, sel)` is true iff at least
one matching layer edge exists with an event in the window. -/
def hasEdge (g : Graph) (w : Option (Int × Int)) (s d : Nat)
    (sel : LayerSel) : Bool :=
  g.edgeAdds.any (fun a =>
    decide (a.src = s) && decide (a.dst = d) && selMatches sel a.layer
      && inWindow w a.time)

/-- Modelled from the spec and the `layers` unit test: `num_edges` counts
distinct (src, dst) pairs having at least one event in a selected layer. -/
def numEdges (g : Graph) (sel : LayerSel) : Nat :=
  (((g.edgeAdds.filter (fun a => selMatches sel a.layer)).map edgeKey).dedup).length

/-- Distinct out-neighbours of `v` across the selected layers. -/
def outNbrs (g : Graph) (sel : LayerSel) (v : Nat) : List Nat :=
  ((g.edgeAdds.filter (fun a => decide (a.src = v) && selMatches sel a.layer)).map
    EdgeAddition.dst).dedup

/-- Distinct in-neighbours of `v` across the selected layers. -/
def inNbrs (g : Graph) (sel : LayerSel) (v : Nat) : List Nat :=
  ((g.edgeAdds.filter (fun a => decide (a.dst = v) && selMatches sel a.layer)).map
    EdgeAddition.src).dedup

/-- Modelled from the `layers` unit test in graph.rs (lines 630-648):
`degree` counts distinct neighbours over the selected layers. -/
def degree (g : Graph) (sel : LayerSel) (v : Nat) : Nat :=
  ((outNbrs g sel v ++ inNbrs g sel v).dedup).length

/-- Out-degree: distinct out-neighbours. -/
def outDegree (g : Graph) (sel : LayerSel) (v : Nat) : Nat :=
  (outNbrs g sel v).length

/-- In-degree: distinct in-neighbours. -/
def inDegree (g : Graph) (sel : LayerSel) (v : Nat) : Nat :=
  (inNbrs g sel v).length

/-- Distinct incident (src, dst) edges of `v` in the selected layers. -/
def incidentEdges (g : Graph) (sel : LayerSel) (v : Nat) : List (Nat × Nat) :=
  ((g.edgeAdds.filter (fun a =>
      (decide (a.src = v) || decide (a.dst = v)) && selMatches sel a.layer)).map
    edgeKey).dedup

/-- Number of distinct selected layers in which the (src, dst) edge has at
least one event. -/
def edgeLayerCount (g : Graph) (sel : LayerSel) (e : Nat × Nat) : Nat :=
  (((g.edgeAdds.filter (fun a =>
        decide (edgeKey a = e) && selMatches sel a.layer)).map
      (fun a => layerId g a.layer)).dedup).length

/-- The count prescribed by the claim's rule for C2: each incident edge
contributes one per layer it is present in. -/
def membershipCount (g : Graph) (sel : LayerSel) (v : Nat) : Nat :=
  ((incidentEdges g sel v).map (edgeLayerCount g sel)).sum

/-- The set of distinct neighbours of `v` over the selected layers. -/
def neighbourSet (g : Graph) (sel : LayerSel) (v : Nat) : Finset Nat :=
  (((g.edgeAdds.filter (fun a => decide (a.src = v) && selMatches sel a.layer)).map
      EdgeAddition.dst)
    ++ ((g.edgeAdds.filter (fun a => decide (a.dst = v) && selMatches sel a.layer)).map
      EdgeAddition.src)).toFinset

/-- Scenario S3 from the specification (the `layers` unit test in graph.rs):
six edge additions at t = 0 across the default layer and two named layers. -/
def s3Graph : Graph :=
  ⟨[],
    [⟨0, 11, 22, none, []⟩,
     ⟨0, 11, 33, none, []⟩,
     ⟨0, 33, 11, none, []⟩,
     ⟨0, 11, 22, some "layer1", []⟩,
     ⟨0, 11, 33, some "layer2", []⟩,
     ⟨0, 11, 44, some "layer2", []⟩]⟩

/-! ## Exploded edge views (C3) -/

/-- Strict lexicographic order on (layer id, time) keys: layer id ascending,
then time ascending. -/
def lexLt (a b : Nat × Int) : Prop :=
  a.1 < b.1 ∨ (a.1 = b.1 ∧ a.2 < b.2)

instance (a b : Nat × Int) : Decidable (lexLt a b) :=
  inferInstanceAs (Decidable (a.1 < b.1 ∨ (a.1 = b.1 ∧ a.2 < b.2)))

/-- Insertion of a (layer, time) key into a strictly `lexLt`-sorted list,
dropping duplicates. -/
def sinsertKey (k : Nat × Int) : List (Nat × Int) → List (Nat × Int)
  | [] => [k]
  | x :: xs =>
    if lexLt k x then k :: x :: xs
    else if k = x then x :: xs
    else x :: sinsertKey k xs

/-- Sorted de-duplicated arrangement of (layer, time) keys. -/
def ssortKeys (l : List (Nat × Int)) : List (Nat × Int) :=
  l.foldr sinsertKey []

/-- An edge view: endpoints, the (layer id, time) events in scope, and an
optional pin to a single event (the exploded state). -/
structure EdgeView where
  src : Nat
  dst : Nat
  events : List (Nat × Int)
  pin : Option (Nat × Int)
deriving DecidableEq, Repr

/-- Events visible through the pin. -/
def EdgeView.visible (e : EdgeView) : List (Nat × Int) :=
  match e.pin with
  | none => e.events
  | some k => e.events.filter (fun x => x = k)

/-- Earliest visible event time of the view. -/
def EdgeView.earliestTime (e : EdgeView) : Option Int :=
  ((EdgeView.visible e).map Prod.snd).min?

/-- Latest visible event time of the view. -/
def EdgeView.latestTime (e : EdgeView) : Option Int :=
  ((EdgeView.visible e).map Prod.snd).max?

/-- Modelled from the spec: the (layer, time) keys of the exploded views, in
(layer id asc, time asc) order, one per distinct event in scope. -/
def EdgeView.explodeKeys (e : EdgeView) : List (Nat × Int) :=
  ssortKeys (EdgeView.visible e)

/-- Modelled from the spec: `explode()` yields one edge view pinned to each
event in scope, ordered by (layer id asc, time asc). -/
def EdgeView.explode (e : EdgeView) : List EdgeView :=
  (EdgeView.explodeKeys e).map (fun k => { e with pin := some k })

/-- Insertion of a layer id into a strictly sorted list, dropping
duplicates. -/
def insertNat (n : Nat) : List Nat → List Nat
  | [] => [n]
  | x :: xs =>
    if n < x then n :: x :: xs
    else if n = x then x :: xs
    else x :: insertNat n xs

/-- Sorted de-duplicated arrangement of layer ids. -/
def sortNats (l : List Nat) : List Nat :=
  l.foldr insertNat []

/-- Modelled from the spec: `explode_layers()` yields one edge view per
layer in which the edge has at least one event, in layer-id order. -/
def EdgeView.explodeLayers (e : EdgeView) : List EdgeView :=
  (sortNats ((EdgeView.visible e).map Prod.fst)).map
    (fun l => { e with events := e.events.filter (fun x => x.1 = l) })

/-- The all-layer edge view of (s, d) in the graph: events are the distinct
(layer id, time) pairs of the edge's additions. -/
def edgeViewOf (g : Graph) (s d : Nat) : EdgeView :=
  ⟨s, d,
    ((g.edgeAdds.filter (fun a => decide (a.src = s) && decide (a.dst = d))).map
      (fun a => (layerId g a.layer, a.time))).dedup,
    none⟩

/-- Scenario S5 from the specification (the `test_layer_explode_stacking`
unit test in graph.rs): one edge with events t=0/layer1, t=1/layer2,
t=2/layer1, t=3/default. -/
def s5Graph : Graph :=
  ⟨[],
    [⟨0, 1, 2, some "layer1", []⟩,
     ⟨1, 1, 2, some "layer2", []⟩,
     ⟨2, 1, 2, some "layer1", []⟩,
     ⟨3, 1, 2, none, []⟩]⟩

/-! ## Window sets (C5, C8, C10), translated from db/api/view/time.rs -/

/-- Parse failure for a timestamp or interval string. -/
inductive ParseTimeError where
  | invalidFormat
deriving DecidableEq, Repr

/-- Gregorian leap year (proleptic, UTC). -/
def isLeap (y : Int) : Bool :=
  y % 4 = 0 && (y % 100 ≠ 0 || y % 400 = 0)

/-- Number of days of a month (1-12) in year `y`. -/
def daysInMonth (y m : Int) : Int :=
  if m = 2 then (if isLeap y then 29 else 28)
  else if m = 4 ∨ m = 6 ∨ m = 9 ∨ m = 11 then 30
  else 31

/-- Day count since 1970-01-01 of a proleptic Gregorian civil date. -/
def daysFromCivil (y m d : Int) : Int :=
  let y1 := if m ≤ 2 then y - 1 else y
  let era := y1.ediv 400
  let yoe := y1 - era * 400
  let doy := (153 * (if 2 < m then m - 3 else m + 9) + 2).ediv 5 + d - 1
  let doe := yoe * 365 + yoe.ediv 4 - yoe.ediv 100 + doy
  era * 146097 + doe - 719468

/-- Civil date (year, month, day) of a day count since 1970-01-01. -/
def civilFromDays (z0 : Int) : Int × Int × Int :=
  let z := z0 + 719468
  let era := z.ediv 146097
  let doe := z - era * 146097
  let yoe := (doe - doe.ediv 1460 + doe.ediv 36524 - doe.ediv 146096).ediv 365
  let y := yoe + era * 400
  let doy := doe - (365 * yoe + yoe.ediv 4 - yoe.ediv 100)
  let mp := (5 * doy + 2).ediv 153
  let d := doy - (153 * mp + 2).ediv 5 + 1
  let m := if mp < 10 then mp + 3 else mp - 9
  (if m ≤ 2 then y + 1 else y, m, d)

/-- Milliseconds per day. -/
def msPerDay : Int := 86400000

/-- Modelled from the spec: calendar addition of months in UTC (the
`Interval` implementation is not under the provided sources); the
day-of-month is clamped to the target month's length, the time of day is
preserved. -/
def addMonths (t dm : Int) : Int :=
  let day := t.ediv msPerDay
  let msod := t.emod msPerDay
  let c := civilFromDays day
  let mi := c.1 * 12 + (c.2.1 - 1) + dm
  let y2 := mi.ediv 12
  let m2 := mi.emod 12 + 1
  let d2 := min c.2.2 (daysInMonth y2 m2)
  daysFromCivil y2 m2 d2 * msPerDay + msod

/-- Modelled from the spec: an interval is either a raw millisecond delta or
an epoch-aligned month count (years are 12 months). -/
inductive Interval where
  | millis (n : Nat)
  | months (n : Nat)
deriving DecidableEq, Repr

instance : Inhabited Interval :=
  ⟨.millis 0⟩

/-- Interval addition `time + step`: raw addition for millisecond deltas,
calendar arithmetic for epoch-aligned intervals. -/
def intervalAdd (t : Int) : Interval → Int
  | .millis n => t + n
  | .months n => addMonths t n

/-- Interval subtraction `time - step`. -/
def intervalSub (t : Int) : Interval → Int
  | .millis n => t - n
  | .months n => addMonths t (-(n : Int))

/-- Translation of the `WindowSet` struct (time.rs lines 127-135), extended
with the parent view's start bound which the expanding iterator reads. -/
structure WindowSet where
  viewStart : Option Int
  cursor : Int
  endT : Int
  step : Interval
  window : Option Interval
deriving DecidableEq, Repr

/-- Translation of `WindowSet::new` (time.rs lines 138-148): the cursor
starts at `start + step`. -/
def WindowSet.new (viewStart : Option Int) (start endT : Int)
    (step : Interval) (window : Option Interval) : WindowSet :=
  ⟨viewStart, intervalAdd start step, endT, step, window⟩

/-- Translation of `WindowSet::empty` (time.rs lines 150-153): start 1, end
0 and the default (zero) interval, so no window is ever produced. -/
def WindowSet.empty (viewStart : Option Int) : WindowSet :=
  WindowSet.new viewStart 1 0 (.millis 0) none

/-- Cursor value after `k` iterator steps (each step adds `step`, time.rs
line 203). -/
def wsCursor (ws : WindowSet) (k : Nat) : Int :=
  (fun t => intervalAdd t ws.step)^[k] ws.cursor

/-- The `k`-th element of the `WindowSet` iterator (time.rs lines 193-209):
an item is produced while `cursor < end + step`; its bounds are
`[cursor - window, cursor)`, the rolling start falling back to the view
start (or the window end) when no window interval is set. -/
def wsNth (ws : WindowSet) (k : Nat) : Option (Int × Int) :=
  if (List.range (k + 1)).all
      (fun j => wsCursor ws j < intervalAdd ws.endT ws.step) then
    some
      (match ws.window with
        | some w => intervalSub (wsCursor ws k) w
        | none => ws.viewStart.getD (wsCursor ws k),
        wsCursor ws k)
  else none

/-- Translation of `TimeOps::rolling` (time.rs lines 83-104): with both
bounds defined the window and step are parsed (the step defaulting to the
window) and a fresh `WindowSet` is built; otherwise the empty window set is
returned without touching the arguments. -/
def rolling (viewStart viewEnd : Option Int)
    (window : Except ParseTimeError Interval)
    (step : Option (Except ParseTimeError Interval)) :
    Except ParseTimeError WindowSet :=
  match viewStart, viewEnd with
  | some s, some e =>
    match window with
    | .error pe => .error pe
    | .ok w =>
      match step with
      | some (.error pe) => .error pe
      | some (.ok p) => .ok (WindowSet.new (some s) s e p (some w))
      | none => .ok (WindowSet.new (some s) s e w (some w))
  | _, _ => .ok (WindowSet.empty viewStart)

/-- Translation of `TimeOps::expanding` (time.rs lines 63-77). -/
def expanding (viewStart viewEnd : Option Int)
    (step : Except ParseTimeError Interval) :
    Except ParseTimeError WindowSet :=
  match viewStart, viewEnd with
  | some s, some e =>
    match step with
    | .error pe => .error pe
    | .ok p => .ok (WindowSet.new (some s) s e p none)
  | _, _ => .ok (WindowSet.empty viewStart)

/-! ## Graph equality (C9), translated from graph.rs lines 41-54 -/

/-- Number of distinct nodes (`num_vertices`). -/
def numVertices (g : Graph) : Nat :=
  (nodesOf g).length

/-- Node existence (`has_vertex`). -/
def hasVertex (g : Graph) (v : Nat) : Bool :=
  decide (v ∈ nodesOf g)

/-- Distinct (src, dst) edges of the graph. -/
def graphEdges (g : Graph) : List (Nat × Nat) :=
  (g.edgeAdds.map edgeKey).dedup

/-- Number of distinct (src, dst) edges (`num_edges`). -/
def numEdgesAll (g : Graph) : Nat :=
  (graphEdges g).length

/-- The exploded events of the whole graph: the distinct
(src, dst, layer, time) tuples of the event log (events duplicated on the
same edge, layer and time are coalesced). -/
def explodedEvents (g : Graph) : List (Nat × Nat × Option String × Int) :=
  (g.edgeAdds.map (fun a => (a.src, a.dst, a.layer, a.time))).dedup

/-- Edge existence over all layers (`g.edge(src, dst).is_some()`). -/
def hasEdgeAll (g : Graph) (s d : Nat) : Bool :=
  g.edgeAdds.any (fun a => decide (a.src = s) && decide (a.dst = d))

/-- Edge lookup returning the (src, dst) pair when present. -/
def edgeOpt (g : Graph) (s d : Nat) : Option (Nat × Nat) :=
  if hasEdgeAll g s d then some (s, d) else none

/-- Whether the (s, d) edge is active at time `t`: it has an event at `t`
in any layer. -/
def edgeActiveAt (g : Graph) (s d : Nat) (t : Int) : Bool :=
  g.edgeAdds.any
    (fun a => decide (a.src = s) && decide (a.dst = d) && decide (a.time = t))

/-- Translation of `graph_equal` (graph.rs lines 41-54): equal node and edge
counts, then all of g1's vertices exist in g2, the exploded edge counts
match, and every exploded edge of g1 finds a (src, dst) edge in g2 active at
its time. -/
def graphEqual (g1 g2 : Graph) : Bool :=
  if numVertices g1 = numVertices g2 ∧ numEdgesAll g1 = numEdgesAll g2 then
    (nodesOf g1).all (fun v => hasVertex g2 v)
      && decide ((explodedEvents g1).length = (explodedEvents g2).length)
      && (explodedEvents g1).all (fun ev =>
          ((edgeOpt g2 ev.1 ev.2.1).filter
            (fun ee => edgeActiveAt g2 ee.1 ee.2 ev.2.2.2)).isSome)
  else false

/-- The equality predicate as the claim words it: counts match, node ids
exist in each other, the exploded-event multisets match, and each exploded
event's matching edge in the other graph is active at the event's time. -/
def claimGraphEqual (g1 g2 : Graph) : Prop :=
  numVertices g1 = numVertices g2
    ∧ numEdgesAll g1 = numEdgesAll g2
    ∧ (∀ v ∈ nodesOf g1, v ∈ nodesOf g2)
    ∧ (∀ v ∈ nodesOf g2, v ∈ nodesOf g1)
    ∧ (explodedEvents g1 : Multiset (Nat × Nat × Option String × Int))
        = (explodedEvents g2 : Multiset (Nat × Nat × Option String × Int))
    ∧ (∀ ev ∈ explodedEvents g1,
        hasEdgeAll g2 ev.1 ev.2.1 = true
          ∧ edgeActiveAt g2 ev.1 ev.2.1 ev.2.2.2 = true)
    ∧ (∀ ev ∈ explodedEvents g2,
        hasEdgeAll g1 ev.1 ev.2.1 = true
          ∧ edgeActiveAt g1 ev.1 ev.2.1 ev.2.2.2 = true)

/-- First graph of the C9 counterexample: one edge with events in two
layers at the same time. -/
def c9Left : Graph :=
  ⟨[], [⟨0, 1, 2, some "a", []⟩, ⟨0, 1, 2, some "b", []⟩]⟩

/-- Second graph of the C9 counterexample: the same edge with two events in
one layer at different times. -/
def c9Right : Graph :=
  ⟨[], [⟨0, 1, 2, some "a", []⟩, ⟨5, 1, 2, some "a", []⟩]⟩

/-- Scenario S6 graph for C7: node 1 added at times 1, 2, 3, 4 and 8. -/
def s6Graph : Graph :=
  ⟨[(1, 1), (2, 1), (3, 1), (4, 1), (8, 1)], []⟩

/-- The unwindowed view of a graph. -/
def fullView (g : Graph) : View :=
  ⟨g, none⟩

deriving instance DecidableEq for Except

instance (g1 g2 : Graph) : Decidable (claimGraphEqual g1 g2) := by
  unfold claimGraphEqual
  infer_instance

/-! # Theorems -/

/-! ### List summation helpers -/

theorem sum_filterMap_getD {α : Type} (l : List α) (h : α → Option ℚ) :
    (l.filterMap h).sum = (l.map (fun x => (h x).getD 0)).sum := by
  induction l with
  | nil => rfl
  | cons a t ih =>
    cases ha : h a <;> simp [List.filterMap_cons, ha, ih]

theorem sum_map_filterMap {α β : Type} (l : List α) (h : α → Option β)
    (f : β → ℚ) :
    ((l.filterMap h).map f).sum
      = (l.map (fun x => ((h x).map f).getD 0)).sum := by
  rw [List.map_filterMap]
  exact sum_filterMap_getD l (fun x => (h x).map f)

theorem sum_map_add {α : Type} (l : List α) (f g : α → ℚ) :
    (l.map (fun a => f a + g a)).sum = (l.map f).sum + (l.map g).sum := by
  induction l with
  | nil => simp
  | cons a t ih => simp [ih]; ring

theorem sum_ind_mul {α : Type} (l : List α) (P : α → Prop) [DecidablePred P]
    (f : α → ℚ) :
    (l.map (fun a => (if P a then (1 : ℚ) else 0) * f a)).sum
      = ((l.filter (fun a => P a)).map f).sum := by
  induction l with
  | nil => rfl
  | cons a t ih =>
    rw [List.map_cons, List.sum_cons, List.filter_cons]
    by_cases hp : P a
    · rw [ih]; simp [hp]
    · rw [ih]; simp [hp]

theorem sum_map_neg {α : Type} (l : List α) (f : α → ℚ) :
    (l.map (fun a => -(f a))).sum = -((l.map f).sum) := by
  induction l with
  | nil => simp
  | cons a t ih => simp [ih]; ring

theorem filter_union_sum {α : Type} (l : List α) (f : α → ℚ)
    (p q : α → Bool) (hpq : ∀ a, ¬(p a = true ∧ q a = true)) :
    ((l.filter (fun a => p a || q a)).map f).sum
      = ((l.filter p).map f).sum + ((l.filter q).map f).sum := by
  induction l with
  | nil => simp
  | cons a t ih =>
    cases hp : p a
    · cases hq : q a
      · simp [List.filter_cons, hp, hq, ih]
      · simp [List.filter_cons, hp, hq, ih]; ring
    · have hq : q a = false := by
        cases hqa : q a
        · rfl
        · exact absurd ⟨hp, hqa⟩ (hpq a)
      simp [List.filter_cons, hp, hq, ih]; ring

theorem group_sum {α κ : Type} [DecidableEq κ] (l : List α) (key : α → κ)
    (f : α → ℚ) (ks : List κ) (hnd : ks.Nodup) :
    (ks.map (fun k => ((l.filter (fun a => key a = k)).map f).sum)).sum
      = ((l.filter (fun a => key a ∈ ks)).map f).sum := by
  induction ks with
  | nil => simp
  | cons k ks ih =>
    obtain ⟨hk, hnd'⟩ := List.nodup_cons.mp hnd
    rw [List.map_cons, List.sum_cons, ih hnd',
      ← filter_union_sum l f (fun a => key a = k) (fun a => key a ∈ ks)
        (by
          intro a h
          obtain ⟨h1, h2⟩ := h
          simp only [decide_eq_true_eq] at h1 h2
          exact hk (h1 ▸ h2))]
    apply congrArg (fun t => List.sum (List.map f t))
    apply List.filter_congr
    intro a _
    simp [List.mem_cons]

/-! ### Balance equivalence with the claimed signed-sum formula -/

theorem tempGet_sum (g : Graph) (s d : Nat) (p : String) :
    ((tempGet g s d p).map sumF64).getD 0
      = ((g.edgeAdds.filter (fun a => a.src = s ∧ a.dst = d)).map
          (eventValue p)).sum := by
  unfold tempGet
  by_cases h : tempValues g s d p = []
  · rw [if_pos h]
    have h0 : ∀ a ∈ g.edgeAdds.filter (fun a => a.src = s ∧ a.dst = d),
        propLookup p a.props = none := by
      rw [tempValues, List.filterMap_eq_nil_iff] at h
      exact h
    have hz : (Option.map sumF64 (none : Option (List Val))).getD 0 = 0 := rfl
    rw [hz]
    symm
    apply List.sum_eq_zero
    intro x hx
    obtain ⟨a, ha, rfl⟩ := List.mem_map.mp hx
    rw [eventValue, h0 a ha]
    rfl
  · rw [if_neg h]
    have hs : (Option.map sumF64 (some (tempValues g s d p))).getD 0
        = sumF64 (tempValues g s d p) := rfl
    rw [hs, sumF64, tempValues, sum_map_filterMap]
    rfl

theorem inFlow_eq_filter (g : Graph) (p : String) (v : Nat) :
    inFlow g p v
      = ((g.edgeAdds.filter (fun a => a.dst = v)).map (eventValue p)).sum := by
  rw [inFlow, sum_filterMap_getD]
  have hpt : ∀ e : Nat × Nat,
      ((tempGet g e.1 e.2 p).map sumF64).getD 0
        = ((g.edgeAdds.filter (fun a => edgeKey a = e)).map
            (eventValue p)).sum := by
    intro e
    rw [tempGet_sum]
    apply congrArg (fun t => List.sum (List.map (eventValue p) t))
    apply List.filter_congr
    intro a _
    simp [edgeKey, Prod.ext_iff]
  simp only [hpt]
  rw [group_sum g.edgeAdds edgeKey (eventValue p) (inEdges g v)
    (List.nodup_dedup _)]
  apply congrArg (fun t => List.sum (List.map (eventValue p) t))
  apply List.filter_congr
  intro a ha
  simp only [decide_eq_decide]
  constructor
  · intro hmem
    obtain ⟨b, hb, hkey⟩ :=
      List.mem_map.mp (List.mem_dedup.mp hmem)
    have hbd : b.dst = v := by
      have := (List.mem_filter.mp hb).2
      simpa using this
    have : a.dst = b.dst := (congrArg Prod.snd hkey).symm
    rw [this, hbd]
  · intro hdst
    apply List.mem_dedup.mpr
    apply List.mem_map_of_mem
    exact List.mem_filter.mpr ⟨ha, by simpa using hdst⟩

theorem outFlow_eq_filter (g : Graph) (p : String) (v : Nat) :
    outFlow g p v
      = ((g.edgeAdds.filter (fun a => a.src = v)).map (eventValue p)).sum := by
  rw [outFlow, sum_filterMap_getD]
  have hpt : ∀ e : Nat × Nat,
      ((tempGet g e.1 e.2 p).map sumF64).getD 0
        = ((g.edgeAdds.filter (fun a => edgeKey a = e)).map
            (eventValue p)).sum := by
    intro e
    rw [tempGet_sum]
    apply congrArg (fun t => List.sum (List.map (eventValue p) t))
    apply List.filter_congr
    intro a _
    simp [edgeKey, Prod.ext_iff]
  simp only [hpt]
  rw [group_sum g.edgeAdds edgeKey (eventValue p) (outEdges g v)
    (List.nodup_dedup _)]
  apply congrArg (fun t => List.sum (List.map (eventValue p) t))
  apply List.filter_congr
  intro a ha
  simp only [decide_eq_decide]
  constructor
  · intro hmem
    obtain ⟨b, hb, hkey⟩ :=
      List.mem_map.mp (List.mem_dedup.mp hmem)
    have hbs : b.src = v := by
      have := (List.mem_filter.mp hb).2
      simpa using this
    have : a.src = b.src := (congrArg Prod.fst hkey).symm
    rw [this, hbs]
  · intro hsrc
    apply List.mem_dedup.mpr
    apply List.mem_map_of_mem
    exact List.mem_filter.mpr ⟨ha, by simpa using hsrc⟩

theorem claimSign_IN (v : Nat) (a : EdgeAddition) :
    claimSign .IN v a = if a.dst = v then 1 else 0 := by
  simp [claimSign]

theorem claimSign_OUT (v : Nat) (a : EdgeAddition) :
    claimSign .OUT v a = if a.src = v then -1 else 0 := by
  simp [claimSign]

theorem claimSign_BOTH (v : Nat) (a : EdgeAddition) :
    claimSign .BOTH v a
      = (if a.src = v then -1 else 0) + (if a.dst = v then 1 else 0) := by
  simp [claimSign]

theorem neg_ind_mul {P : Prop} [Decidable P] (x : ℚ) :
    (if P then (-1 : ℚ) else 0) * x = -((if P then (1 : ℚ) else 0) * x) := by
  by_cases h : P <;> simp [h]

theorem balancePerNode_eq_claimBalance (g : Graph) (p : String)
    (d : Direction) (v : Nat) :
    balancePerNode g p d v = claimBalance g p d v := by
  cases d with
  | IN =>
    rw [balancePerNode, claimBalance, inFlow_eq_filter, ← sum_ind_mul]
    apply congrArg List.sum
    apply List.map_congr_left
    intro a _
    rw [claimSign_IN]
  | OUT =>
    rw [balancePerNode, claimBalance, outFlow_eq_filter, ← sum_ind_mul]
    rw [← sum_map_neg]
    apply congrArg List.sum
    apply List.map_congr_left
    intro a _
    rw [claimSign_OUT, neg_ind_mul]
  | BOTH =>
    rw [balancePerNode, claimBalance, inFlow_eq_filter, outFlow_eq_filter,
      ← sum_ind_mul g.edgeAdds (fun a => a.dst = v) (eventValue p),
      ← sum_ind_mul g.edgeAdds (fun a => a.src = v) (eventValue p),
      ← sum_map_neg]
    rw [← sum_map_add]
    apply congrArg List.sum
    apply List.map_congr_left
    intro a _
    rw [claimSign_BOTH, add_mul, neg_ind_mul]
    ring

theorem lookup_map_self (ks : List Nat) (f : Nat → ℚ) (w : Nat) :
    ((ks.map (fun v => (v, f v))).lookup w)
      = if w ∈ ks then some (f w) else none := by
  induction ks with
  | nil => simp [List.lookup]
  | cons k ks ih =>
    rw [List.map_cons, List.lookup]
    by_cases hw : w = k
    · subst hw
      simp
    · have : (w == k) = false := beq_false_of_ne hw
      rw [this]
      rw [ih]
      by_cases hmem : w ∈ ks <;> simp [hmem, List.mem_cons, hw]

/-- C1: for every graph, property name and direction, `balance` assigns to
every node the sum over the node's incident edges of the per-event
`into_f64` values of the property (non-numeric contributing 0), where an
edge event whose source is the node contributes with sign −1 exactly when
the direction is OUT or BOTH and an event whose destination is the node
contributes with sign +1 exactly when the direction is IN or BOTH; on the
eight-event S2 graph the per-node results for BOTH, IN and OUT are the
claimed maps. -/
theorem C1_balance_signed_sum :
    (∀ (g : Graph) (p : String) (d : Direction) (v : Nat),
        balancePerNode g p d v = claimBalance g p d v)
    ∧ (∀ (g : Graph) (p : String) (d : Direction) (v : Nat),
        (balance g p d).lookup v
          = if v ∈ nodesOf g then some (claimBalance g p d v) else none)
    ∧ ((balance s2Graph "value_dec" .BOTH).lookup 1 = some (-26)
        ∧ (balance s2Graph "value_dec" .BOTH).lookup 2 = some 7
        ∧ (balance s2Graph "value_dec" .BOTH).lookup 3 = some 12
        ∧ (balance s2Graph "value_dec" .BOTH).lookup 4 = some 5
        ∧ (balance s2Graph "value_dec" .BOTH).lookup 5 = some 2)
    ∧ ((balance s2Graph "value_dec" .IN).lookup 1 = some 6
        ∧ (balance s2Graph "value_dec" .IN).lookup 2 = some 12
        ∧ (balance s2Graph "value_dec" .IN).lookup 3 = some 15
        ∧ (balance s2Graph "value_dec" .IN).lookup 4 = some 20
        ∧ (balance s2Graph "value_dec" .IN).lookup 5 = some 2)
    ∧ ((balance s2Graph "value_dec" .OUT).lookup 1 = some (-32)
        ∧ (balance s2Graph "value_dec" .OUT).lookup 2 = some (-5)
        ∧ (balance s2Graph "value_dec" .OUT).lookup 3 = some (-3)
        ∧ (balance s2Graph "value_dec" .OUT).lookup 4 = some (-15)
        ∧ (balance s2Graph "value_dec" .OUT).lookup 5 = some 0) := by
  refine ⟨balancePerNode_eq_claimBalance, fun g p d v => ?_,
    ⟨?_, ?_, ?_, ?_, ?_⟩, ⟨?_, ?_, ?_, ?_, ?_⟩, ⟨?_, ?_, ?_, ?_, ?_⟩⟩
  · rw [balance, lookup_map_self]
    by_cases hv : v ∈ nodesOf g
    · rw [if_pos hv, if_pos hv, balancePerNode_eq_claimBalance]
    · rw [if_neg hv, if_neg hv]
  all_goals
    rw [balance, lookup_map_self, if_pos (by decide),
      balancePerNode_eq_claimBalance]
    norm_num [claimBalance, claimSign_IN, claimSign_OUT, claimSign_BOTH,
      eventValue, propLookup, intoF64, s2Graph]

/-! ### Window composition (C4) -/

/-- C4: composing two windows over any view is observably equivalent to a
single window on the intersected bounds: the views are equal outright, and
in particular their nodes, edges, events, per-edge events, node histories
and time bounds agree. -/
theorem C4_window_composition (v : View) (a b c d : Int) :
    ((v.windowed a b).windowed c d = v.windowed (max a c) (min b d))
    ∧ ((v.windowed a b).windowed c d).nodes
        = (v.windowed (max a c) (min b d)).nodes
    ∧ ((v.windowed a b).windowed c d).edges
        = (v.windowed (max a c) (min b d)).edges
    ∧ ((v.windowed a b).windowed c d).events
        = (v.windowed (max a c) (min b d)).events
    ∧ (∀ s e : Nat, ((v.windowed a b).windowed c d).edgeEvents s e
        = (v.windowed (max a c) (min b d)).edgeEvents s e)
    ∧ (∀ n : Nat, ((v.windowed a b).windowed c d).nodeHistory n
        = (v.windowed (max a c) (min b d)).nodeHistory n)
    ∧ ((v.windowed a b).windowed c d).startTime
        = (v.windowed (max a c) (min b d)).startTime
    ∧ ((v.windowed a b).windowed c d).endTime
        = (v.windowed (max a c) (min b d)).endTime := by
  have h : (v.windowed a b).windowed c d = v.windowed (max a c) (min b d) := by
    obtain ⟨base, w⟩ := v
    cases w with
    | none => simp [View.windowed]
    | some p =>
      obtain ⟨s, e⟩ := p
      simp [View.windowed, max_assoc, min_assoc]
  exact ⟨h, by rw [h], by rw [h], by rw [h], fun s e => by rw [h],
    fun n => by rw [h], by rw [h], by rw [h]⟩

/-! ### Window sets (C5, C8, C10) -/

theorem wsCursor_succ (ws : WindowSet) (k : Nat) :
    wsCursor ws (k + 1) = intervalAdd (wsCursor ws k) ws.step := by
  rw [wsCursor, Function.iterate_succ_apply', wsCursor]

theorem wsCursor_millis (vs : Option Int) (s e : Int) (p : Nat)
    (w : Option Interval) (j : Nat) :
    wsCursor (WindowSet.new vs s e (.millis p) w) j
      = s + (p : Int) + (j : Int) * (p : Int) := by
  induction j with
  | zero => simp [wsCursor, WindowSet.new, intervalAdd]
  | succ n ih =>
    rw [wsCursor_succ, ih]
    show s + (p : Int) + (n : Int) * (p : Int) + (p : Int) = _
    push_cast
    ring

/-- Characterization of the k-th rolling window for a raw millisecond window
and step: it exists iff `s + k·p < e` (that is, while `cursor − step < end`)
and spans `[s + (k+1)·p − w, s + (k+1)·p)`. -/
theorem rolling_millis_char (s e : Int) (w p : Nat) (k : Nat) :
    (rolling (some s) (some e) (.ok (.millis w))
        (some (.ok (.millis p)))).map (fun ws => wsNth ws k)
      = .ok (if s + (k : Int) * (p : Int) < e
          then some (s + ((k : Int) + 1) * (p : Int) - (w : Int),
            s + ((k : Int) + 1) * (p : Int))
          else none) := by
  show Except.ok
      (wsNth (WindowSet.new (some s) s e (.millis p) (some (.millis w))) k)
    = _
  apply congrArg Except.ok
  by_cases hk : s + (k : Int) * (p : Int) < e
  · rw [if_pos hk]
    rw [wsNth, if_pos]
    · apply congrArg some
      rw [wsCursor_millis]
      show (s + (p : Int) + (k : Int) * (p : Int) - (w : Int), _) = _
      rw [Prod.mk.injEq]
      constructor
      · ring_nf
      · ring_nf
    · rw [List.all_eq_true]
      intro j hj
      rw [List.mem_range] at hj
      rw [decide_eq_true_eq, wsCursor_millis]
      have hjk : (j : Int) ≤ (k : Int) := by
        exact_mod_cast Nat.lt_succ_iff.mp hj
      have hmul : (j : Int) * (p : Int) ≤ (k : Int) * (p : Int) :=
        mul_le_mul_of_nonneg_right hjk (by positivity)
      show s + (p : Int) + (j : Int) * (p : Int) < intervalAdd e (.millis p)
      simp only [intervalAdd]
      linarith
  · rw [if_neg hk]
    rw [wsNth, if_neg]
    intro hall
    rw [List.all_eq_true] at hall
    have := hall k (List.mem_range.mpr (Nat.lt_succ_self k))
    rw [decide_eq_true_eq, wsCursor_millis] at this
    simp only [WindowSet.new, intervalAdd] at this
    exact hk (by linarith)

/-- C5: with both bounds defined, `rolling(w, p)` produces the k-th window
`[c − w, c)` at cursor `c = s + (k+1)·p`, exactly while `c − p < e`; the
step defaults to the window when omitted; the cursor advances by interval
addition, which is calendar arithmetic for epoch-aligned (month/year)
steps. -/
theorem C5_rolling_windows :
    (∀ (s e : Int) (w p : Nat) (k : Nat),
      (rolling (some s) (some e) (.ok (.millis w))
          (some (.ok (.millis p)))).map (fun ws => wsNth ws k)
        = .ok (if s + (k : Int) * (p : Int) < e
            then some (s + ((k : Int) + 1) * (p : Int) - (w : Int),
              s + ((k : Int) + 1) * (p : Int))
            else none))
    ∧ (∀ (vs ve : Option Int) (w : Interval),
        rolling vs ve (.ok w) none = rolling vs ve (.ok w) (some (.ok w)))
    ∧ (∀ (ws : WindowSet) (k : Nat),
        wsCursor ws (k + 1) = intervalAdd (wsCursor ws k) ws.step)
    ∧ (∀ (t : Int) (n : Nat), intervalAdd t (.months n) = addMonths t n) := by
  refine ⟨rolling_millis_char, ?_, wsCursor_succ, fun t n => rfl⟩
  intro vs ve w
  cases vs with
  | none => rfl
  | some s =>
    cases ve with
    | none => rfl
    | some e => rfl

theorem wsNth_empty (vs : Option Int) (k : Nat) :
    wsNth (WindowSet.empty vs) k = none := by
  rw [wsNth, if_neg]
  intro hall
  rw [List.all_eq_true] at hall
  have h := hall 0 (List.mem_range.mpr (Nat.succ_pos k))
  rw [decide_eq_true_eq] at h
  simp only [WindowSet.empty, WindowSet.new, wsCursor, intervalAdd,
    Function.iterate_zero, id] at h
  omega

/-- C8 counterexample: on a view with undefined bounds, `rolling` with an
unparseable step returns `Ok` with the empty window set — it does not
surface `ParseTimeError`, because the bounds are checked before the step is
parsed. -/
theorem C8_counterexample :
    rolling none none (.error .invalidFormat) none
        = .ok (WindowSet.empty none)
      ∧ expanding none none (.error .invalidFormat)
        = .ok (WindowSet.empty none)
      ∧ wsNth (WindowSet.empty none) 0 = none := by
  exact ⟨rfl, rfl, wsNth_empty none 0⟩

/-- C8 (amended): when `start()` or `end()` is undefined, `rolling` and
`expanding` return `Ok` with a window set yielding no windows, even when the
step or window argument is unparseable (the bounds are checked first); an
unparseable window or step surfaces as `ParseTimeError` only when both
bounds are defined. -/
theorem C8_empty_bounds (vs ve : Option Int)
    (w : Except ParseTimeError Interval)
    (stp : Option (Except ParseTimeError Interval))
    (hempty : vs = none ∨ ve = none) :
    (rolling vs ve w stp = .ok (WindowSet.empty vs)
        ∧ expanding vs ve w = .ok (WindowSet.empty vs)
        ∧ ∀ k, wsNth (WindowSet.empty vs) k = none)
    ∧ (∀ (s e : Int) (pe : ParseTimeError)
        (stp2 : Option (Except ParseTimeError Interval)),
        rolling (some s) (some e) (.error pe) stp2 = .error pe)
    ∧ (∀ (s e : Int) (w2 : Interval) (pe : ParseTimeError),
        rolling (some s) (some e) (.ok w2) (some (.error pe)) = .error pe)
    ∧ (∀ (s e : Int) (pe : ParseTimeError),
        expanding (some s) (some e) (.error pe) = .error pe) := by
  refine ⟨⟨?_, ?_, wsNth_empty vs⟩, fun s e pe stp2 => ?_, fun s e w2 pe => rfl,
    fun s e pe => rfl⟩
  · cases vs with
    | none => rfl
    | some s =>
      cases ve with
      | none => rfl
      | some e =>
        rcases hempty with h | h <;> exact absurd h (by simp)
  · cases vs with
    | none => rfl
    | some s =>
      cases ve with
      | none => rfl
      | some e =>
        rcases hempty with h | h <;> exact absurd h (by simp)
  · cases stp2 with
    | none => rfl
    | some st => cases st <;> rfl

/-- Witness for C8_empty_bounds at concrete inputs. -/
theorem C8_empty_bounds_witness :
    rolling none (some 3) (.error .invalidFormat) none
        = .ok (WindowSet.empty none)
      ∧ rolling (some 0) (some 3) (.error .invalidFormat) none
        = .error .invalidFormat :=
  ⟨(C8_empty_bounds none (some 3) (.error .invalidFormat) none
      (Or.inl rfl)).1.1,
    (C8_empty_bounds none (some 3) (.error .invalidFormat) none
      (Or.inl rfl)).2.1 0 3 .invalidFormat none⟩

/-- C10: rolling windows are not clamped to the view's start: when the
window is larger than the step, the first window is
`[s + p − w, s + p)` and its start lies strictly before `s`; for bounds
`[1, 6)` with window 3 and step 2 the first window is `[0, 3)`. -/
theorem C10_rolling_unclamped (s e : Int) (w p : Nat)
    (hse : s < e) (hpw : p < w) :
    (rolling (some s) (some e) (.ok (.millis w))
        (some (.ok (.millis p)))).map (fun ws => wsNth ws 0)
      = .ok (some (s + (p : Int) - (w : Int), s + (p : Int)))
    ∧ s + (p : Int) - (w : Int) < s := by
  constructor
  · rw [rolling_millis_char s e w p 0]
    apply congrArg Except.ok
    rw [if_pos (by push_cast; linarith)]
    apply congrArg some
    rw [Prod.mk.injEq]
    constructor <;> (push_cast; ring_nf)
  · have : (p : Int) < (w : Int) := by exact_mod_cast hpw
    linarith

/-- Witness for C10_rolling_unclamped: bounds [1, 6), window 3, step 2 give
first window [0, 3), starting before 1. -/
theorem C10_rolling_unclamped_witness :
    (1 : Int) < 6 ∧ 2 < 3
      ∧ ((rolling (some 1) (some 6) (.ok (.millis 3))
            (some (.ok (.millis 2)))).map (fun ws => wsNth ws 0)
          = .ok (some (0, 3))
        ∧ (1 : Int) + (2 : Nat) - (3 : Nat) < 1) := by
  refine ⟨by norm_num, by norm_num, ?_⟩
  have h := C10_rolling_unclamped 1 6 3 2 (by norm_num) (by norm_num)
  constructor
  · rw [h.1]
    norm_num
  · exact h.2

/-! ### Degree and layer selection (C2, C6) -/

theorem dedup_append_dedup_length (A B : List Nat) :
    ((A.dedup ++ B.dedup).dedup).length = (A ++ B).toFinset.card := by
  have h1 : (A.dedup ++ B.dedup).toFinset = (A ++ B).toFinset := by
    ext a
    simp [List.mem_toFinset, List.mem_append, List.mem_dedup]
  calc ((A.dedup ++ B.dedup).dedup).length
      = (A.dedup ++ B.dedup).toFinset.card := (List.card_toFinset _).symm
    _ = (A ++ B).toFinset.card := by rw [h1]

theorem degree_eq_card (g : Graph) (sel : LayerSel) (v : Nat) :
    degree g sel v = (neighbourSet g sel v).card := by
  rw [degree, neighbourSet, outNbrs, inNbrs]
  exact dedup_append_dedup_length _ _

/-- C2 counterexample: in the S3 graph the claim's membership rule (an edge
present in k layers contributes k) prescribes 6 for node 11 under the
all-layer selection, but `degree` is 3 (the value the `layers` unit test in
graph.rs asserts). -/
theorem C2_counterexample :
    degree s3Graph .all 11 ≠ membershipCount s3Graph .all 11 := by
  decide

/-- C2 (amended): under any layer selection, `degree(v)` counts distinct
neighbours, so an edge present in k layers contributes 1 (not k); in the S3
graph node 11 has all-layer degree 3 (the membership rule would give 6),
default-layer degree 2, layer1 degree 1, layer2 degree 2, out-degree 3 and
in-degree 1. -/
theorem C2_degree_distinct_neighbours :
    (∀ (g : Graph) (sel : LayerSel) (v : Nat),
        degree g sel v = (neighbourSet g sel v).card)
    ∧ degree s3Graph .all 11 = 3
    ∧ degree s3Graph .dflt 11 = 2
    ∧ degree s3Graph (.name "layer1") 11 = 1
    ∧ degree s3Graph (.name "layer2") 11 = 2
    ∧ outDegree s3Graph .all 11 = 3
    ∧ inDegree s3Graph .all 11 = 1
    ∧ membershipCount s3Graph .all 11 = 6 :=
  ⟨degree_eq_card, by decide, by decide, by decide, by decide, by decide,
    by decide, by decide⟩

/-- C6: `has_edge` over a layer selection is true iff at least one matching
layer edge event exists in the window; on the S3 graph, has_edge(11,22,All)
holds, has_edge(11,22,layer2) fails, has_edge(11,44,layer2) holds, and the
edge counts are 4 (all), 3 (default), 1 (layer1) and 2 (layer2). -/
theorem C6_layer_edges :
    (∀ (g : Graph) (w : Option (Int × Int)) (s d : Nat) (sel : LayerSel),
        hasEdge g w s d sel = true
          ↔ ∃ a ∈ g.edgeAdds, a.src = s ∧ a.dst = d
              ∧ selMatches sel a.layer = true ∧ inWindow w a.time = true)
    ∧ hasEdge s3Graph none 11 22 .all = true
    ∧ hasEdge s3Graph none 11 22 (.name "layer2") = false
    ∧ hasEdge s3Graph none 11 44 (.name "layer2") = true
    ∧ numEdges s3Graph .all = 4
    ∧ numEdges s3Graph .dflt = 3
    ∧ numEdges s3Graph (.name "layer1") = 1
    ∧ numEdges s3Graph (.name "layer2") = 2
    ∧ numVertices s3Graph = 4 := by
  refine ⟨?_, by decide, by decide, by decide, by decide, by decide,
    by decide, by decide, by decide⟩
  intro g w s d sel
  rw [hasEdge, List.any_eq_true]
  constructor
  · rintro ⟨a, ha, hcond⟩
    simp only [Bool.and_eq_true, decide_eq_true_eq] at hcond
    exact ⟨a, ha, hcond.1.1.1, hcond.1.1.2, hcond.1.2, hcond.2⟩
  · rintro ⟨a, ha, h1, h2, h3, h4⟩
    exact ⟨a, ha, by simp [h1, h2, h3, h4]⟩

/-! ### Node history (C7) -/

theorem insertT_chain (t : Int) (l : List Int)
    (h : List.Chain' (· < ·) l) :
    List.Chain' (· < ·) (insertT t l) := by
  induction l with
  | nil => simp [insertT]
  | cons a rest ih =>
    simp only [insertT]
    by_cases h1 : t < a
    · rw [if_pos h1]
      exact List.chain'_cons.mpr ⟨h1, h⟩
    · rw [if_neg h1]
      by_cases h2 : t = a
      · rw [if_pos h2]
        exact h
      · rw [if_neg h2]
        have hrest : List.Chain' (· < ·) rest := h.tail
        have hat : a < t := by
          rcases lt_trichotomy t a with hh | hh | hh
          · exact absurd hh h1
          · exact absurd hh h2
          · exact hh
        rw [List.chain'_cons']
        refine ⟨?_, ih hrest⟩
        intro y hy
        cases rest with
        | nil =>
          simp only [insertT, List.head?] at hy
          rw [Option.mem_def, Option.some.injEq] at hy
          exact hy ▸ hat
        | cons b rest2 =>
          simp only [insertT] at hy
          by_cases hb : t < b
          · rw [if_pos hb] at hy
            simp only [List.head?, Option.mem_def, Option.some.injEq] at hy
            exact hy ▸ hat
          · rw [if_neg hb] at hy
            have hab : a < b := (List.chain'_cons.mp h).1
            by_cases heq : t = b
            · rw [if_pos heq] at hy
              simp only [List.head?, Option.mem_def, Option.some.injEq] at hy
              exact hy ▸ hab
            · rw [if_neg heq] at hy
              simp only [List.head?, Option.mem_def, Option.some.injEq] at hy
              exact hy ▸ hab

theorem mem_insertT (t x : Int) (l : List Int) :
    x ∈ insertT t l ↔ x = t ∨ x ∈ l := by
  induction l with
  | nil => simp [insertT]
  | cons a rest ih =>
    simp only [insertT]
    by_cases h1 : t < a
    · rw [if_pos h1]
      simp [List.mem_cons]
    · rw [if_neg h1]
      by_cases h2 : t = a
      · rw [if_pos h2]
        subst h2
        simp [List.mem_cons]
      · rw [if_neg h2]
        simp only [List.mem_cons, ih]
        tauto

theorem sortTimes_chain (l : List Int) :
    List.Chain' (· < ·) (sortTimes l) := by
  rw [sortTimes]
  induction l with
  | nil => simp
  | cons a rest ih => exact insertT_chain a _ ih

theorem mem_sortTimes (l : List Int) (x : Int) :
    x ∈ sortTimes l ↔ x ∈ l := by
  rw [sortTimes]
  induction l with
  | nil => simp
  | cons a rest ih =>
    rw [List.foldr_cons, mem_insertT, List.mem_cons, ih]

/-- C7: for every view, a node's history is strictly increasing (sorted,
adjacent equal times de-duplicated), and it contains exactly the node's
event times inside the view's window; on the S6 graph (node added at times
1, 2, 3, 4, 8) the full history is [1,2,3,4,8] and the window(1,8) history
is [1,2,3,4]. -/
theorem C7_node_history :
    (∀ (v : View) (n : Nat), List.Chain' (· < ·) (View.nodeHistory v n))
    ∧ (∀ (v : View) (n : Nat) (t : Int),
        t ∈ View.nodeHistory v n
          ↔ ∃ na ∈ v.base.nodeAdds,
              na.2 = n ∧ inWindow v.window na.1 = true ∧ na.1 = t)
    ∧ (fullView s6Graph).nodeHistory 1 = [1, 2, 3, 4, 8]
    ∧ ((fullView s6Graph).windowed 1 8).nodeHistory 1 = [1, 2, 3, 4] := by
  refine ⟨fun v n => sortTimes_chain _, ?_, by decide, by decide⟩
  intro v n t
  rw [View.nodeHistory, mem_sortTimes]
  simp only [List.mem_map, List.mem_filter, Bool.and_eq_true,
    decide_eq_true_eq]
  constructor
  · rintro ⟨na, ⟨hmem, hn, hw⟩, ht⟩
    exact ⟨na, hmem, hn, hw, ht⟩
  · rintro ⟨na, hmem, hn, hw, ht⟩
    exact ⟨na, ⟨hmem, hn, hw⟩, ht⟩

/-! ### Exploded edges (C3) -/

theorem lexLt_trans {a b c : Nat × Int} (h1 : lexLt a b) (h2 : lexLt b c) :
    lexLt a c := by
  rcases h1 with h | ⟨e1, l1⟩ <;> rcases h2 with h2 | ⟨e2, l2⟩
  · exact Or.inl (h.trans h2)
  · exact Or.inl (e2 ▸ h)
  · exact Or.inl (e1 ▸ h2)
  · exact Or.inr ⟨e1.trans e2, l1.trans l2⟩

theorem lexLt_irrefl (a : Nat × Int) : ¬lexLt a a := by
  rintro (h | ⟨_, h⟩) <;> exact absurd h (lt_irrefl _)

theorem lexLt_of_not_of_ne {a b : Nat × Int} (h1 : ¬lexLt a b) (h2 : a ≠ b) :
    lexLt b a := by
  rcases lt_trichotomy a.1 b.1 with h | h | h
  · exact absurd (Or.inl h) h1
  · rcases lt_trichotomy a.2 b.2 with hh | hh | hh
    · exact absurd (Or.inr ⟨h, hh⟩) h1
    · exact absurd (Prod.ext h hh) h2
    · exact Or.inr ⟨h.symm, hh⟩
  · exact Or.inl h

theorem mem_sinsertKey (k x : Nat × Int) (l : List (Nat × Int)) :
    x ∈ sinsertKey k l ↔ x = k ∨ x ∈ l := by
  induction l with
  | nil => simp [sinsertKey]
  | cons a rest ih =>
    simp only [sinsertKey]
    by_cases h1 : lexLt k a
    · rw [if_pos h1]
      simp [List.mem_cons]
    · rw [if_neg h1]
      by_cases h2 : k = a
      · rw [if_pos h2]
        subst h2
        simp [List.mem_cons]
      · rw [if_neg h2]
        simp only [List.mem_cons, ih]
        tauto

theorem sinsertKey_chain (k : Nat × Int) (l : List (Nat × Int))
    (h : List.Chain' lexLt l) :
    List.Chain' lexLt (sinsertKey k l) := by
  induction l with
  | nil => simp [sinsertKey]
  | cons a rest ih =>
    simp only [sinsertKey]
    by_cases h1 : lexLt k a
    · rw [if_pos h1]
      exact List.chain'_cons.mpr ⟨h1, h⟩
    · rw [if_neg h1]
      by_cases h2 : k = a
      · rw [if_pos h2]
        exact h
      · rw [if_neg h2]
        have hrest : List.Chain' lexLt rest := h.tail
        have hak : lexLt a k := lexLt_of_not_of_ne h1 h2
        rw [List.chain'_cons']
        refine ⟨?_, ih hrest⟩
        intro y hy
        cases rest with
        | nil =>
          simp only [sinsertKey, List.head?] at hy
          rw [Option.mem_def, Option.some.injEq] at hy
          exact hy ▸ hak
        | cons b rest2 =>
          simp only [sinsertKey] at hy
          have hab : lexLt a b := (List.chain'_cons.mp h).1
          by_cases hb : lexLt k b
          · rw [if_pos hb] at hy
            simp only [List.head?, Option.mem_def, Option.some.injEq] at hy
            exact hy ▸ hak
          · rw [if_neg hb] at hy
            by_cases heq : k = b
            · rw [if_pos heq] at hy
              simp only [List.head?, Option.mem_def, Option.some.injEq] at hy
              exact hy ▸ hab
            · rw [if_neg heq] at hy
              simp only [List.head?, Option.mem_def, Option.some.injEq] at hy
              exact hy ▸ hab

theorem ssortKeys_chain (l : List (Nat × Int)) :
    List.Chain' lexLt (ssortKeys l) := by
  rw [ssortKeys]
  induction l with
  | nil => simp
  | cons a rest ih => exact sinsertKey_chain a _ ih

theorem mem_ssortKeys (l : List (Nat × Int)) (x : Nat × Int) :
    x ∈ ssortKeys l ↔ x ∈ l := by
  rw [ssortKeys]
  induction l with
  | nil => simp
  | cons a rest ih =>
    rw [List.foldr_cons, mem_sinsertKey, List.mem_cons, ih]

theorem chain'_lexLt_head {a : Nat × Int} {l : List (Nat × Int)}
    (h : List.Chain' lexLt (a :: l)) : ∀ b ∈ l, lexLt a b := by
  induction l generalizing a with
  | nil => intro b hb; cases hb
  | cons x rest ih =>
    intro b hb
    have hax : lexLt a x := (List.chain'_cons.mp h).1
    rcases List.mem_cons.mp hb with rfl | hb2
    · exact hax
    · exact lexLt_trans hax (ih (List.chain'_cons.mp h).2 b hb2)

theorem chain'_lexLt_nodup (l : List (Nat × Int))
    (h : List.Chain' lexLt l) : l.Nodup := by
  induction l with
  | nil => exact List.nodup_nil
  | cons a rest ih =>
    rw [List.nodup_cons]
    refine ⟨fun hmem => ?_, ih h.tail⟩
    exact lexLt_irrefl a (chain'_lexLt_head h a hmem)

theorem foldl_min_all (c : Int) (t : List Int) (h : ∀ x ∈ t, x = c) :
    t.foldl min c = c := by
  induction t with
  | nil => rfl
  | cons a r ih =>
    rw [List.foldl_cons, h a (by simp), min_self]
    exact ih (fun x hx => h x (by simp [hx]))

theorem foldl_max_all (c : Int) (t : List Int) (h : ∀ x ∈ t, x = c) :
    t.foldl max c = c := by
  induction t with
  | nil => rfl
  | cons a r ih =>
    rw [List.foldl_cons, h a (by simp), max_self]
    exact ih (fun x hx => h x (by simp [hx]))

theorem min?_all_eq {l : List Int} {c : Int} (hne : l ≠ [])
    (hall : ∀ x ∈ l, x = c) : l.min? = some c := by
  cases l with
  | nil => exact absurd rfl hne
  | cons a t =>
    rw [List.min?_cons', hall a (by simp)]
    rw [foldl_min_all c t (fun x hx => hall x (by simp [hx]))]

theorem max?_all_eq {l : List Int} {c : Int} (hne : l ≠ [])
    (hall : ∀ x ∈ l, x = c) : l.max? = some c := by
  cases l with
  | nil => exact absurd rfl hne
  | cons a t =>
    rw [List.max?_cons', hall a (by simp)]
    rw [foldl_max_all c t (fun x hx => hall x (by simp [hx]))]

theorem mem_events_of_mem_visible {e : EdgeView} {k : Nat × Int}
    (hk : k ∈ EdgeView.visible e) : k ∈ e.events := by
  rw [EdgeView.visible] at hk
  cases hp : e.pin with
  | none => rw [hp] at hk; exact hk
  | some k0 =>
    rw [hp] at hk
    exact (List.mem_filter.mp hk).1

theorem pinned_times {e : EdgeView} {k : Nat × Int}
    (hk : k ∈ EdgeView.visible e) :
    EdgeView.earliestTime { e with pin := some k } = some k.2
      ∧ EdgeView.latestTime { e with pin := some k } = some k.2 := by
  have hkev : k ∈ e.events := mem_events_of_mem_visible hk
  have h1 : k ∈ e.events.filter (fun x => x = k) :=
    List.mem_filter.mpr ⟨hkev, by simp⟩
  have hne : (e.events.filter (fun x => x = k)).map Prod.snd ≠ [] := by
    intro hnil
    rw [List.map_eq_nil_iff] at hnil
    rw [hnil] at h1
    cases h1
  have hall : ∀ x ∈ (e.events.filter (fun x => x = k)).map Prod.snd,
      x = k.2 := by
    intro x hx
    obtain ⟨a, ha, rfl⟩ := List.mem_map.mp hx
    have := (List.mem_filter.mp ha).2
    rw [decide_eq_true_eq] at this
    rw [this]
  constructor
  · rw [EdgeView.earliestTime]
    exact min?_all_eq hne hall
  · rw [EdgeView.latestTime]
    exact max?_all_eq hne hall

/-- C3: `explode()` yields exactly one pinned view per (layer, time) event
in scope — membership matches the visible events and there are no
duplicates — totally ordered by (layer id asc, time asc); every pinned view
has `earliest_time = latest_time =` its pinned time; and on the S5 edge,
`explode_layers()` followed by `explode()` yields the claimed sequence
(t=3,L=0), (t=0,L=1), (t=2,L=1), (t=1,L=2). -/
theorem C3_explode :
    (∀ e : EdgeView, List.Chain' lexLt (EdgeView.explodeKeys e))
    ∧ (∀ e : EdgeView, (EdgeView.explodeKeys e).Nodup)
    ∧ (∀ (e : EdgeView) (k : Nat × Int),
        k ∈ EdgeView.explodeKeys e ↔ k ∈ EdgeView.visible e)
    ∧ (∀ e : EdgeView,
        (EdgeView.explode e).map EdgeView.earliestTime
          = (EdgeView.explodeKeys e).map (fun k => some k.2))
    ∧ (∀ e : EdgeView,
        (EdgeView.explode e).map EdgeView.latestTime
          = (EdgeView.explodeKeys e).map (fun k => some k.2))
    ∧ (edgeViewOf s5Graph 1 2).explodeKeys = [(0, 3), (1, 0), (1, 2), (2, 1)]
    ∧ (edgeViewOf s5Graph 1 2).explodeLayers.map
        (fun p => p.explodeKeys)
      = [[(0, 3)], [(1, 0), (1, 2)], [(2, 1)]] := by
  refine ⟨fun e => ssortKeys_chain _,
    fun e => chain'_lexLt_nodup _ (ssortKeys_chain _),
    fun e k => mem_ssortKeys _ _, ?_, ?_, by decide, by decide⟩
  · intro e
    rw [EdgeView.explode, List.map_map]
    apply List.map_congr_left
    intro k hk
    exact (pinned_times ((mem_ssortKeys _ _).mp hk)).1
  · intro e
    rw [EdgeView.explode, List.map_map]
    apply List.map_congr_left
    intro k hk
    exact (pinned_times ((mem_ssortKeys _ _).mp hk)).2

/-! ### Graph equality (C9) -/

theorem filter_isSome (g : Graph) (s d : Nat) (t : Int) :
    ((edgeOpt g s d).filter (fun ee => edgeActiveAt g ee.1 ee.2 t)).isSome
      = (hasEdgeAll g s d && edgeActiveAt g s d t) := by
  rw [edgeOpt]
  by_cases h : hasEdgeAll g s d = true
  · rw [if_pos h, h]
    cases hp : edgeActiveAt g s d t <;> simp [Option.filter, hp]
  · have hf : hasEdgeAll g s d = false := Bool.eq_false_iff.mpr h
    rw [if_neg h, hf]
    simp [Option.filter]

/-- C9 counterexample: `graph_equal` returns true on a pair of graphs whose
exploded-event multisets differ — the left graph has one edge with events in
two layers at time 0, the right graph has the same edge with events at
times 0 and 5 in one layer — so the claimed iff fails. -/
theorem C9_counterexample :
    graphEqual c9Left c9Right = true ∧ ¬claimGraphEqual c9Left c9Right := by
  refine ⟨by decide, by decide⟩

/-- C9 (amended): `graph_equal(g1, g2)` returns true iff the node counts
match, the edge counts match, every node id of g1 exists in g2, the counts
of exploded events match, and every exploded event of g1 has a matching
(src, dst) edge in g2 that is active at the event's time.  (The check is
one-directional and count-based: it does not compare the exploded-event
multisets.) -/
theorem C9_graph_equal (g1 g2 : Graph) :
    graphEqual g1 g2 = true
      ↔ numVertices g1 = numVertices g2
        ∧ numEdgesAll g1 = numEdgesAll g2
        ∧ (∀ v ∈ nodesOf g1, v ∈ nodesOf g2)
        ∧ (explodedEvents g1).length = (explodedEvents g2).length
        ∧ (∀ ev ∈ explodedEvents g1,
            hasEdgeAll g2 ev.1 ev.2.1 = true
              ∧ edgeActiveAt g2 ev.1 ev.2.1 ev.2.2.2 = true) := by
  rw [graphEqual]
  by_cases h : numVertices g1 = numVertices g2
      ∧ numEdgesAll g1 = numEdgesAll g2
  · rw [if_pos h]
    simp only [Bool.and_eq_true, List.all_eq_true, decide_eq_true_eq,
      filter_isSome, hasVertex]
    constructor
    · rintro ⟨⟨hv, hc⟩, hact⟩
      exact ⟨h.1, h.2, hv, hc, hact⟩
    · rintro ⟨_, _, hv, hc, hact⟩
      exact ⟨⟨hv, hc⟩, hact⟩
  · rw [if_neg h]
    simp only [Bool.false_eq_true, false_iff]
    intro hcl
    exact h ⟨hcl.1, hcl.2.1⟩

end Raphtory
